import Mathlib

/-!
Verification development for the MicroBitLog flash data logger
(source: src/source/MicroBitLog.cpp).

The C++ code is shallowly embedded as pure Lean functions:

* byte strings are `List Nat` (each element an octet value);
* flash/cache mutations performed by an operation are recorded as an
  ordered trace `List Op` (write-through cache writes, cache page drops,
  NVM page erases), so ordering claims become statements about traces;
* the logger's in-RAM state (`status` bits, region pointers, row data)
  is the structure `LogState`;
* machine integers are `Nat`; every theorem that depends on `uint32_t`
  subtraction carries the invariant (`dataEnd ≤ logEnd`) under which
  truncated `Nat` subtraction agrees with the 32-bit subtraction the
  source performs.

All recursive loops are translated with an explicit fuel argument that
the callers instantiate with a provably sufficient bound, keeping every
definition kernel-computable.
-/

namespace MicroBitLog

/-- Bytes of a string literal, as octet values. -/
def strBytes (s : String) : List Nat := s.toList.map Char.toNat

/-- CONFIG_MICROBIT_LOG_CACHE_BLOCK_SIZE: cache block size B.  The
constructor instantiates the cache with this config value; default 256
(spec §6: "cache block size B default 256"). -/
def cacheBlockSize : Nat := 256

/-- MICROBIT_LOG_JOURNAL_ENTRY_SIZE: journal entries are 8 bytes
(spec §3: "Contiguous 8-byte entries"); the macro lives in the header,
outside src/. -/
def journalEntrySize : Nat := 8

/-- CONFIG_MICROBIT_LOG_INVALID_CHAR_VALUE: the replacement byte used by
`cleanBuffer`; default is the character '#' = 35 (spec §6: "replacement
byte default `'#'`"). -/
def invalidCharValue : Nat := 35

/-- sizeof(MicroBitLogMetaData): `version[18]`, `dataStart[11]`,
`logEnd[11]` (spec §3 metadata record), 40 bytes. -/
def metaDataSize : Nat := 40

/-- Modelled from the spec: the CODAL return codes surfaced by the public
API (§6, §7: `ok | no_resources | invalid_state`).  Their numeric values
are defined in ErrorNo.h, outside src/; only their distinctness matters
here. -/
inductive RetCode where
  | ok
  | noResources
  | invalidState
deriving Repr, DecidableEq

/-- One record of the mutation trace an operation performs on the medium:
a write-through cache write of the given bytes at the given address, a
cache drop of the page containing the address, or an NVM page erase of
the page containing the address. -/
inductive Op where
  | cacheWrite (addr : Nat) (bytes : List Nat)
  | cacheErase (addr : Nat)
  | flashErase (addr : Nat)
deriving Repr, DecidableEq

/-- Modelled from the spec: the numeric values of the `TimeStampFormat`
enumeration (declared in MicroBitLog.h, outside src/).  `endRow` divides
the monotonic millisecond clock by the enum value and §4.6.1 renders the
quotient with two fractional digits for every unit other than
milliseconds, so that scenario S5 (12 340 ms, seconds → "12.34") holds;
hence the value of each non-millisecond unit is the number of
milliseconds in one hundredth of that unit, and `Days` shares the
`"hours"` label (§9). -/
inductive TimeStampFormat where
  | None
  | Milliseconds
  | Seconds
  | Minutes
  | Hours
  | Days
deriving Repr, DecidableEq

/-- The numeric value of a `TimeStampFormat` (see the comment on
`TimeStampFormat`). -/
def TimeStampFormat.val : TimeStampFormat → Nat
  | .None => 0
  | .Milliseconds => 1
  | .Seconds => 10
  | .Minutes => 600
  | .Hours => 36000
  | .Days => 864000

/-- In-RAM state of the logger (MicroBitLog member variables).  The
`status` bitfield is split into the two bits the public operations
consult, `statusFull` (MICROBIT_LOG_STATUS_FULL) and `rowStarted`
(MICROBIT_LOG_STATUS_ROW_STARTED); all modelled operations act on an
initialized log, on which `init()` returns immediately.  `rowData` is
the ordered column list of (key, value) byte strings; its length is the
source's `headingCount`, which the source keeps equal to the array
length. -/
structure LogState where
  statusFull : Bool
  rowStarted : Bool
  startAddress : Nat
  journalStart : Nat
  journalHead : Nat
  dataStart : Nat
  dataEnd : Nat
  logEnd : Nat
  pageSize : Nat
  headingStart : Nat
  headingLength : Nat
  headingsChanged : Bool
  rowData : List (List Nat × List Nat)
  timeStampFormat : TimeStampFormat
  timeStampHeading : List Nat
deriving Repr, DecidableEq

/-! ## cleanBuffer (MicroBitLog.cpp lines 503-526) -/

/-- The source's arrow test at index `i`:
`i+2 < len && s[i] == '-' && s[i+1] == '-' && s[i+2] == '>'`. -/
def arrowAt (s : List Nat) (i : Nat) : Bool :=
  decide (i + 2 < s.length) && (s.getD i 0 == 45) && (s.getD (i+1) 0 == 45)
    && (s.getD (i+2) 0 == 62)

/-- The source's separator test at index `i`:
`s[i] == '\t' || (removeSeparators && (s[i] == ',' || s[i] == '\n'))`. -/
def sepAt (s : List Nat) (removeSeparators : Bool) (i : Nat) : Bool :=
  (s.getD i 0 == 9) || (removeSeparators && ((s.getD i 0 == 44) || (s.getD i 0 == 10)))

/-- One iteration of `cleanBuffer`'s loop at index `i`: each of the two
blocks lazily copies the input on the first change (`out` empty) and
then overwrites the offending position(s) with
CONFIG_MICROBIT_LOG_INVALID_CHAR_VALUE.  The conditions read the
original buffer `s`, exactly as the source reads `s` while mutating
`out`. -/
def cleanStep (s : List Nat) (removeSeparators : Bool) (out : List Nat) (i : Nat) :
    List Nat :=
  let out :=
    if arrowAt s i then
      let o := if out.length = 0 then s else out
      ((o.set i invalidCharValue).set (i+1) invalidCharValue).set (i+2) invalidCharValue
    else out
  if sepAt s removeSeparators i then
    let o := if out.length = 0 then s else out
    o.set i invalidCharValue
  else out

/-- MicroBitLog::cleanBuffer: scans every index of `s`; returns the
cleaned copy if any change was needed, otherwise the empty string.  In
`logData` the `removeSeparators` argument is left at its default, which
the header (outside src/) sets; per spec §4.6 delimited fields also have
`,` and `\n` removed, so that default is `true`. -/
def cleanBuffer (s : List Nat) (removeSeparators : Bool) : List Nat :=
  (List.range s.length).foldl (cleanStep s removeSeparators) []

/-! ## logString (MicroBitLog.cpp lines 532-627) -/

/-- writeNum (MicroBitLog.cpp lines 40-51): the 8 uppercase ASCII hex
digits of `n`, most significant nibble first.  (The source also stores a
terminating NUL at `buf[8]`, which is never part of the 8 bytes written
to the medium.) -/
def writeNum (n : Nat) : List Nat :=
  [28, 24, 20, 16, 12, 8, 4, 0].map
    (fun sh => let d := (n >>> sh) % 16; if d > 9 then 65 + d - 10 else 48 + d)

/-- Result of `logString`'s write-through loop: the advanced `dataEnd`,
the bytes still unwritten (`l` at loop exit; empty whenever the loop
runs to completion), and the trace of cache writes / page pre-erases it
issued. -/
structure WLOut where
  dataEnd : Nat
  rem : List Nat
  ops : List Op
deriving Repr, DecidableEq

/-- The `while (l > 0)` loop of `logString` (lines 558-581): per
iteration, `spaceOnPage = pageSize - dataEnd % pageSize`, write
`min l spaceOnPage` bytes through the cache at `dataEnd`, pre-erasing
the next page when this write fills or overspills the current page and a
next page exists below `logEnd`.  `fuel` bounds the iteration count;
callers pass `data.length`, which suffices whenever `0 < pageSize`. -/
def writeLoop (pageSize logEnd : Nat) (dataEnd : Nat) (data : List Nat) (fuel : Nat) :
    WLOut :=
  match fuel with
  | 0 => ⟨dataEnd, data, []⟩
  | Nat.succ fuel =>
    if data.length = 0 then ⟨dataEnd, data, []⟩
    else
      let spaceOnPage := pageSize - dataEnd % pageSize
      let lengthToWrite := min data.length spaceOnPage
      let eraseOps :=
        if spaceOnPage ≤ data.length ∧ dataEnd + spaceOnPage < logEnd then
          [Op.flashErase (((dataEnd / pageSize) + 1) * pageSize)]
        else []
      let rest := writeLoop pageSize logEnd (dataEnd + lengthToWrite)
        (data.drop lengthToWrite) fuel
      ⟨rest.dataEnd, rest.rem,
        eraseOps ++ (Op.cacheWrite dataEnd (data.take lengthToWrite) :: rest.ops)⟩

/-- The journal-commit block of `logString` (lines 583-618), entered when
`dataEnd / B` moved: advance `journalHead` by one entry; on a page
boundary, wrap to `journalStart` when the advanced head equals
`dataStart`, and drop/erase the page (cache, then NVM); write the new
8-hex-digit entry `((dataEnd - dataStart) / B) * B` at the new head;
only then overwrite the old entry with all-zero bytes. -/
def commitStep (st : LogState) : LogState × List Op :=
  let oldJournalHead := st.journalHead
  let jh0 := st.journalHead + journalEntrySize
  let jh1 := if jh0 % st.pageSize = 0 then
      (if jh0 = st.dataStart then st.journalStart else jh0)
    else jh0
  let eraseOps := if jh0 % st.pageSize = 0 then [Op.cacheErase jh1, Op.flashErase jh1]
    else []
  let entry := writeNum (((st.dataEnd - st.dataStart) / cacheBlockSize) * cacheBlockSize)
  ({st with journalHead := jh1},
    eraseOps ++ [Op.cacheWrite jh1 entry,
      Op.cacheWrite oldJournalHead (List.replicate journalEntrySize 0)])

/-- MicroBitLog::logString(const char *) on an initialized log (`init()`
returns immediately; the mutex serialises and is not modelled).  The
source computes `logEnd - dataEnd` in `uint32_t`; `Nat` subtraction
agrees under the invariant `dataEnd ≤ logEnd`, which the theorems carry.
Returns the CODAL code, the new state and the mutation trace. -/
def logString (st : LogState) (s : List Nat) : RetCode × LogState × List Op :=
  let oldDataEnd := st.dataEnd
  if s.length > st.logEnd - st.dataEnd then
    if st.statusFull then (RetCode.noResources, st, [])
    else (RetCode.noResources, {st with statusFull := true},
      [Op.cacheWrite (st.logEnd + 1) (strBytes "FUL")])
  else
    let cleaned := cleanBuffer s false
    let data := if cleaned.length ≠ 0 then cleaned else s
    let w := writeLoop st.pageSize st.logEnd st.dataEnd data data.length
    let st1 := {st with dataEnd := w.dataEnd}
    if w.dataEnd / cacheBlockSize ≠ oldDataEnd / cacheBlockSize then
      let c := commitStep st1
      ((if w.rem.length = 0 then RetCode.ok else RetCode.noResources), c.1, w.ops ++ c.2)
    else
      ((if w.rem.length = 0 then RetCode.ok else RetCode.noResources), st1, w.ops)

/-- The bytes a trace appends to the data region (cache writes at
addresses at or beyond `dataStart`), concatenated in trace order. -/
def appendedBytes (dataStart : Nat) (ops : List Op) : List Nat :=
  ops.foldr
    (fun op acc =>
      match op with
      | Op.cacheWrite a d => if dataStart ≤ a then d ++ acc else acc
      | _ => acc)
    []

/-- A trace element that programs bytes into the journal region
`[journalStart, dataStart)` through the cache. -/
def isJournalCacheWrite (st : LogState) (op : Op) : Prop :=
  ∃ a d, op = Op.cacheWrite a d ∧ st.journalStart ≤ a ∧ a < st.dataStart

instance (st : LogState) (op : Op) : Decidable (isJournalCacheWrite st op) := by
  unfold isJournalCacheWrite
  match op with
  | Op.cacheWrite a d =>
    by_cases h : st.journalStart ≤ a ∧ a < st.dataStart
    · exact isTrue ⟨a, d, rfl, h.1, h.2⟩
    · refine isFalse ?_
      rintro ⟨a', d', heq, h1, h2⟩
      cases heq
      exact h ⟨h1, h2⟩
  | Op.cacheErase a => exact isFalse (by rintro ⟨_, _, h, -, -⟩; cases h)
  | Op.flashErase a => exact isFalse (by rintro ⟨_, _, h, -, -⟩; cases h)

/-! ## Row protocol: logData, addHeading, beginRow (lines 317-389, 645-672) -/

/-- The matching loop of `logData` (lines 373-382): set the value of the
first column whose key equals `key`; the flag reports whether a match
was found (`added`). -/
def setColumn : List (List Nat × List Nat) → List Nat → List Nat →
    List (List Nat × List Nat) × Bool
  | [], _, _ => ([], false)
  | kv :: rest, key, value =>
    if kv.1 = key then ((kv.1, value) :: rest, true)
    else
      let r := setColumn rest key value
      (kv :: r.1, r.2)

/-- MicroBitLog::addHeading (lines 645-672): no effect when the key is
already a column; otherwise append the (key, value) column and mark
`headingsChanged`. -/
def addHeading (st : LogState) (key value : List Nat) : LogState :=
  if st.rowData.any (fun kv => kv.1 == key) then st
  else {st with rowData := st.rowData ++ [(key, value)], headingsChanged := true}

/-- The row-reset part of MicroBitLog::beginRow (lines 326-330): blank
every column's value and set MICROBIT_LOG_STATUS_ROW_STARTED.  (When no
row is open — the only case in which `logData` invokes `beginRow` —
`beginRow` reduces to exactly this.) -/
def beginRowCore (st : LogState) : LogState :=
  {st with
    rowData := st.rowData.map fun kv => (kv.1, ([] : List Nat))
    rowStarted := true}

/-- MicroBitLog::logData (lines 354-389) on an initialized log: open a
row implicitly if needed; clean key and value (delimited fields, so the
default `removeSeparators` applies — see `cleanBuffer`); use the cleaned
copy only when cleaning changed something; set the matching column or
add a new heading.  The source always returns DEVICE_OK. -/
def logData (st : LogState) (key value : List Nat) : RetCode × LogState :=
  let st := if st.rowStarted = false then beginRowCore st else st
  let k := cleanBuffer key true
  let v := cleanBuffer value true
  let key := if k.length ≠ 0 then k else key
  let value := if v.length ≠ 0 then v else value
  let r := setColumn st.rowData key value
  let st := {st with rowData := r.1}
  let st := if r.2 = false then addHeading st key value else st
  (RetCode.ok, st)

/-! ## setTimeStamp (lines 273-310) -/

/-- The `switch (format)` of `setTimeStamp`: the column-label text per
time unit (`none` for TimeStampFormat::None, which returns before
building a heading).  The `Days` case of the source selects `"hours"`. -/
def unitsLabel : TimeStampFormat → Option (List Nat)
  | .None => none
  | .Milliseconds => some (strBytes "milliseconds")
  | .Seconds => some (strBytes "seconds")
  | .Minutes => some (strBytes "minutes")
  | .Hours => some (strBytes "hours")
  | .Days => some (strBytes "hours")

/-- MicroBitLog::setTimeStamp on an initialized log: record the format;
unless it is None, build `"Time (" + units + ")"` and add that heading
if not present (value defaulted to the empty string, per the header's
declaration of `addHeading`; spec §4.6.1). -/
def setTimeStamp (st : LogState) (format : TimeStampFormat) : LogState :=
  let st := {st with timeStampFormat := format}
  match unitsLabel format with
  | none => st
  | some units =>
    let heading := strBytes "Time (" ++ units ++ strBytes ")"
    addHeading {st with timeStampHeading := heading} heading []

/-! ## endRow (lines 395-493) -/

/-- Decimal digits (ASCII) of `n`, most significant first — the
rendering `ManagedString(int)` performs for the nonnegative values
`endRow` passes it.  Fuel-based; `natDec` supplies `n + 1`, always
sufficient. -/
def natDecAux : Nat → Nat → List Nat
  | _, 0 => []
  | n, Nat.succ fuel =>
    if n < 10 then [48 + n] else natDecAux (n / 10) fuel ++ [48 + n % 10]

/-- ASCII decimal rendering of a natural number. -/
def natDec (n : Nat) : List Nat := natDecAux n (n + 1)

/-- padString (lines 31-38): left-pad with '0' to the requested width.
The source loops `while (s.length() != digits)` prepending `"0"`, which
agrees with this for `s.length ≤ digits` (and does not terminate
otherwise; every call site passes a shorter string). -/
def padString (s : List Nat) (digits : Nat) : List Nat :=
  List.replicate (digits - s.length) 48 ++ s

/-- The timestamp rendering of `endRow` (lines 403-435): divide the
millisecond clock by the format's numeric value, split off billions to
dodge 32-bit formatting overflow, and for non-millisecond units render
`units/100` followed by '.' and the zero-padded two-digit
`units % 100`. -/
def timestampString (fmtVal : Nat) (timeMs : Nat) : List Nat :=
  let t := timeMs / fmtVal
  let billions0 := t / 1000000000
  let units0 := t % 1000000000
  let fraction := if fmtVal > 1 then units0 % 100 else 0
  let units := if fmtVal > 1 then units0 / 100 else units0
  let billions := if fmtVal > 1 then billions0 / 100 else billions0
  let f := padString (natDec fraction) 2
  let u := if billions ≠ 0 then padString (natDec units) 9 else natDec units
  let s := (if billions ≠ 0 then natDec billions else []) ++ u
  if fmtVal > 1 then s ++ (46 :: f) else s

/-- The headings-changed block of `endRow` (lines 441-466): place
`headingStart` after the metadata on first use; build the CSV header
line from all column keys; overwrite the previous headings region with
`headingLength` zero bytes; advance `headingStart` by that length and
write the new header line there; then also append it to the data region
via `logString`; clear the flag.  (`headingLength` itself is not
updated, exactly as in the source.) -/
def writeHeadings (st : LogState) : LogState × List Op :=
  let headingStart := if st.headingStart = 0 then st.startAddress + metaDataSize
    else st.headingStart
  let h := List.intercalate [44] (st.rowData.map (fun kv => kv.1)) ++ [10]
  let ops1 := [Op.cacheWrite headingStart (List.replicate st.headingLength 0)]
  let headingStart2 := headingStart + st.headingLength
  let ops2 := [Op.cacheWrite headingStart2 h]
  let r := logString {st with headingStart := headingStart2} h
  ({r.2.1 with headingsChanged := false}, ops1 ++ ops2 ++ r.2.2)

/-- MicroBitLog::endRow (lines 395-493) on an initialized log, with the
monotonic clock reading `timeMs`: fail with DEVICE_INVALID_STATE when no
row is open; insert the timestamp column value when a format is set;
flush changed headings; serialise the row values to CSV and append via
`logString` when any value is non-empty; clear ROW_STARTED
unconditionally; and report DEVICE_NO_RESOURCES exactly when the FULL
bit is set at exit. -/
def endRow (timeMs : Nat) (st : LogState) : RetCode × LogState × List Op :=
  if st.rowStarted = false then (RetCode.invalidState, st, [])
  else
    let st1 := if st.timeStampFormat ≠ TimeStampFormat.None then
        (logData st st.timeStampHeading
          (timestampString st.timeStampFormat.val timeMs)).2
      else st
    let p2 := if st1.headingsChanged then writeHeadings st1 else (st1, [])
    let st2 := p2.1
    let row := List.intercalate [44] (st2.rowData.map (fun kv => kv.2)) ++ [10]
    let empty := st2.rowData.all (fun kv => kv.2.length = 0)
    let p3 := if empty = false then
        (let r := logString st2 row
        (r.2.1, r.2.2))
      else (st2, [])
    let st3 := {p3.1 with rowStarted := false}
    (if st3.statusFull then RetCode.noResources else RetCode.ok, st3, p2.2 ++ p3.2)

/-! ## Mount recovery: the journal scan and byte scan of init (lines 94-126)

The medium is modelled as a byte map `mem : Nat → Nat`. -/

/-- The 8 bytes of the journal entry at address `a` as `cache.read`
returns them. -/
def entryAt (mem : Nat → Nat) (a : Nat) : List Nat :=
  (List.range journalEntrySize).map (fun i => mem (a + i))

/-- JournalEntry::containsOnly: every byte of the entry equals `v`. -/
def containsOnly (e : List Nat) (v : Nat) : Bool :=
  e.all (fun b => b == v)

/-- Value of an ASCII character as a base-16 digit, if it is one. -/
def hexVal (c : Nat) : Option Nat :=
  if 48 ≤ c ∧ c ≤ 57 then some (c - 48)
  else if 65 ≤ c ∧ c ≤ 70 then some (c - 55)
  else if 97 ≤ c ∧ c ≤ 102 then some (c - 87)
  else none

/-- `strtoul(_, NULL, 16)` on a journal entry: accumulate the maximal
leading run of hex digits (0 if the first byte is not one).  Journal
bytes are uppercase hex digits, 0x00 or 0xFF, on which this agrees with
strtoul (whose whitespace/sign/"0x" handling never engages). -/
def parseHex : List Nat → Nat → Nat
  | [], acc => acc
  | c :: cs, acc =>
    match hexVal c with
    | some d => parseHex cs (acc * 16 + d)
    | none => acc

/-- Hex-parsed value of a journal entry. -/
def parseHexEntry (e : List Nat) : Nat := parseHex e 0

/-- The journal scan of `init` (lines 95-115): walk entries from `addr`
in 8-byte strides while `addr < dataStart`; stop at an all-0xFF entry
once `valid` is set; entries that are not all-0x00 update
`journalHead := addr`, `dataEnd := dataStart + parseHex(entry)` and set
`valid`.  `fuel` bounds the stride count; `initRecover` passes
`dataStart - journalStart`, which exceeds the number of strides. -/
def scanLoop (mem : Nat → Nat) (dataStart : Nat) :
    Nat → Nat → Nat → Nat → Bool → Nat × Nat
  | 0, _, jh, de, _ => (jh, de)
  | Nat.succ fuel, addr, jh, de, valid =>
    if addr < dataStart then
      let j := entryAt mem addr
      if containsOnly j 255 && valid then (jh, de)
      else if containsOnly j 0 then
        scanLoop mem dataStart fuel (addr + journalEntrySize) jh de valid
      else
        scanLoop mem dataStart fuel (addr + journalEntrySize) addr
          (dataStart + parseHexEntry j) true
    else (jh, de)

/-- The byte scan of `init` (lines 117-126): advance `dataEnd` one byte
at a time while it is below `logEnd` and the byte read is not 0xFF.
`fuel` bounds the steps; callers pass `logEnd - dataEnd`, which is
exact. -/
def byteScan (mem : Nat → Nat) (logEnd : Nat) : Nat → Nat → Nat
  | 0, dataEnd => dataEnd
  | Nat.succ fuel, dataEnd =>
    if dataEnd < logEnd then
      (if mem dataEnd == 255 then dataEnd else byteScan mem logEnd fuel (dataEnd + 1))
    else dataEnd

/-- The `(journalHead, dataEnd)` reconstruction of `init` on a present
log (lines 91-126): start the scan at `journalStart` with
`journalHead = journalStart`, `dataEnd = dataStart`, `valid = false`,
then byte-scan forward from the recovered `dataEnd`. -/
def initRecover (mem : Nat → Nat) (journalStart dataStart logEnd : Nat) : Nat × Nat :=
  let r := scanLoop mem dataStart (dataStart - journalStart) journalStart journalStart
    dataStart false
  (r.1, byteScan mem logEnd (logEnd - r.2) r.2)

/-- The list of journal entries the scan visits: entries at `addr`,
`addr + 8`, … while below `dataStart` (bounded by the same fuel as
`scanLoop`). -/
def entriesView (mem : Nat → Nat) (dataStart : Nat) : Nat → Nat → List (List Nat)
  | 0, _ => []
  | Nat.succ fuel, addr =>
    if addr < dataStart then
      entryAt mem addr :: entriesView mem dataStart fuel (addr + journalEntrySize)
    else []

/-- `scanLoop` rephrased over a list of entries (the bridge between the
address-strided source loop and list reasoning). -/
def scanEntries (ds : Nat) : List (List Nat) → Nat → Nat → Nat → Bool → Nat × Nat
  | [], _, jh, de, _ => (jh, de)
  | j :: js, addr, jh, de, valid =>
    if containsOnly j 255 && valid then (jh, de)
    else if containsOnly j 0 then
      scanEntries ds js (addr + journalEntrySize) jh de valid
    else
      scanEntries ds js (addr + journalEntrySize) addr (ds + parseHexEntry j) true

/-- Modelled from the spec: the journal scan exactly as claim C2 words
it, with "live" read per the spec's glossary (an entry that is neither
all-0x00 nor all-0xFF): skip all-0x00 entries, stop at the first
all-0xFF entry seen after a live entry, and record the last live entry
scanned.  An all-0xFF entry seen before any live entry matches none of
those rules and is passed over. -/
def claimScanEntries (ds : Nat) : List (List Nat) → Nat → Nat → Nat → Bool → Nat × Nat
  | [], _, jh, de, _ => (jh, de)
  | j :: js, addr, jh, de, seenLive =>
    if containsOnly j 255 && seenLive then (jh, de)
    else if containsOnly j 0 then
      claimScanEntries ds js (addr + journalEntrySize) jh de seenLive
    else if !(containsOnly j 255) then
      claimScanEntries ds js (addr + journalEntrySize) addr (ds + parseHexEntry j) true
    else
      claimScanEntries ds js (addr + journalEntrySize) jh de seenLive

/-- Modelled from the spec: claim C2's reconstruction — `claimScanEntries`
over the scanned entries, followed by the same byte scan. -/
def claimRecover (mem : Nat → Nat) (journalStart dataStart logEnd : Nat) : Nat × Nat :=
  let r := claimScanEntries dataStart
    (entriesView mem dataStart (dataStart - journalStart) journalStart)
    journalStart journalStart dataStart false
  (r.1, byteScan mem logEnd (logEnd - r.2) r.2)

/-! ## Derived definitions used by the theorems -/

/-- The journal head address after the advance of `commitStep` (lines
590-606): one entry further, wrapped to `journalStart` when it reaches a
page boundary equal to `dataStart`. -/
def jhAfter (st : LogState) : Nat :=
  if (st.journalHead + journalEntrySize) % st.pageSize = 0 then
    (if st.journalHead + journalEntrySize = st.dataStart then st.journalStart
      else st.journalHead + journalEntrySize)
  else st.journalHead + journalEntrySize

/-- The cleaning actually applied by `logData` and `logString`: the
cleaned copy when `cleanBuffer` reports changes, otherwise the original
bytes (`cleanBuffer` returns the empty string to signal "no change
needed"). -/
def cleanEff (removeSeparators : Bool) (s : List Nat) : List Nat :=
  let c := cleanBuffer s removeSeparators
  if c.length = 0 then s else c

/-- Some replacement fires at index `i` of `cleanBuffer`'s scan. -/
def triggerAt (s : List Nat) (rs : Bool) (i : Nat) : Bool :=
  arrowAt s i || sepAt s rs i

/-- Position `p` is overwritten by a replacement fired at some scan index
below `k`: an arrow at `i` overwrites `i`, `i+1`, `i+2`; a separator at
`i` overwrites `i`. -/
def coveredBelow (s : List Nat) (rs : Bool) (k p : Nat) : Bool :=
  (List.range k).any fun i =>
    (arrowAt s i && (p == i || p == i + 1 || p == i + 2)) || (sepAt s rs i && p == i)

/-- Closed-form description of `cleanBuffer`: the input with every
covered position replaced when some replacement fires, the empty list
otherwise. -/
def cleanModel (s : List Nat) (rs : Bool) : List Nat :=
  if (List.range s.length).any (triggerAt s rs) then
    (List.range s.length).map fun p =>
      if coveredBelow s rs s.length p then invalidCharValue else s.getD p 0
  else []

/-- A concrete initialized, empty log used to instantiate theorems:
page size 1024, one journal page at 3072, data region [4096, 65536). -/
def sampleState : LogState where
  statusFull := false
  rowStarted := false
  startAddress := 2048
  journalStart := 3072
  journalHead := 3072
  dataStart := 4096
  dataEnd := 4096
  logEnd := 65536
  pageSize := 1024
  headingStart := 0
  headingLength := 0
  headingsChanged := false
  rowData := []
  timeStampFormat := TimeStampFormat.None
  timeStampHeading := []

/-- A log whose `dataEnd` sits one byte below a cache-block boundary, so
a one-byte append crosses it. -/
def c1State : LogState := {sampleState with dataEnd := 4351}

/-- A log whose journal head sits on the last entry of the journal page,
ready to wrap, with `dataEnd` one byte below a block boundary. -/
def c4State : LogState := {sampleState with journalHead := 4088, dataEnd := 4351}

/-- A journal memory whose first two entries are erased (0xFF) and whose
third is the live entry "00000010", inside a 32-byte journal starting at
address 0 (data region [32, 40), all erased). -/
def crashJournalMem (a : Nat) : Nat :=
  (List.replicate 16 255 ++ strBytes "00000010" ++ List.replicate 16 255).getD a 255

/-- A journal memory for a post-crash state: one invalidated entry, two
consecutive live entries "00000001" and "00000002", one erased entry;
data bytes 65, 66 at 32 and 33, erased from 34 on. -/
def twoLiveMem (a : Nat) : Nat :=
  (List.replicate 8 0 ++ strBytes "0000000100000002" ++ List.replicate 8 255
    ++ [65, 66] ++ List.replicate 6 255).getD a 255

/-! ## Lemmas about the data-write loop -/

theorem appendedBytes_append (ds : Nat) (l1 l2 : List Op) :
    appendedBytes ds (l1 ++ l2) = appendedBytes ds l1 ++ appendedBytes ds l2 := by
  induction l1 with
  | nil => simp [appendedBytes]
  | cons op l1 ih =>
    cases op with
    | cacheWrite a d =>
      by_cases h : ds ≤ a
      · simp [appendedBytes, h] at ih ⊢
        simp [ih]
      · simp [appendedBytes, h] at ih ⊢
        exact ih
    | cacheErase a => simpa [appendedBytes] using ih
    | flashErase a => simpa [appendedBytes] using ih

theorem appendedBytes_cacheWrite_cons (ds a : Nat) (d : List Nat) (l : List Op)
    (h : ds ≤ a) :
    appendedBytes ds (Op.cacheWrite a d :: l) = d ++ appendedBytes ds l := by
  simp [appendedBytes, h]

theorem appendedBytes_skip_cons (ds : Nat) (op : Op) (l : List Op)
    (h : ∀ a d, op = Op.cacheWrite a d → a < ds) :
    appendedBytes ds (op :: l) = appendedBytes ds l := by
  cases op with
  | cacheWrite a d =>
    have := h a d rfl
    simp [appendedBytes, Nat.not_le.2 this]
  | cacheErase a => simp [appendedBytes]
  | flashErase a => simp [appendedBytes]

/-- Every trace element of the write loop is either a cache write at an
address not below the starting `dataEnd`, or a page erase. -/
theorem writeLoop_ops_mem (ps le : Nat) :
    ∀ (fuel de : Nat) (data : List Nat),
      ∀ op ∈ (writeLoop ps le de data fuel).ops,
        (∃ a bs, op = Op.cacheWrite a bs ∧ de ≤ a) ∨ (∃ a, op = Op.flashErase a) := by
  intro fuel
  induction fuel with
  | zero => intro de data op hop; simp [writeLoop] at hop
  | succ fuel ih =>
    intro de data op hop
    by_cases hlen : data.length = 0
    · simp [writeLoop, hlen] at hop
    · simp only [writeLoop, hlen, if_false] at hop
      simp only [List.mem_append, List.mem_cons] at hop
      rcases hop with hop | hop | hop
      · right
        split at hop
        · simp only [List.mem_singleton] at hop
          exact ⟨_, hop⟩
        · simp at hop
      · exact Or.inl ⟨de, _, hop, Nat.le_refl de⟩
      · rcases ih _ _ op hop with ⟨a, bs, rfl, ha⟩ | h
        · exact Or.inl ⟨a, bs, rfl, Nat.le_trans (Nat.le_add_right _ _) ha⟩
        · exact Or.inr h

/-- With a positive page size and sufficient fuel the loop consumes all
of `data` and advances `dataEnd` by its length. -/
theorem writeLoop_run (ps le : Nat) (hps : 0 < ps) :
    ∀ (fuel de : Nat) (data : List Nat), data.length ≤ fuel →
      (writeLoop ps le de data fuel).rem = [] ∧
      (writeLoop ps le de data fuel).dataEnd = de + data.length := by
  intro fuel
  induction fuel with
  | zero =>
    intro de data hfuel
    have : data = [] := List.length_eq_zero.1 (Nat.le_zero.1 hfuel)
    subst this
    simp [writeLoop]
  | succ fuel ih =>
    intro de data hfuel
    by_cases hlen : data.length = 0
    · have : data = [] := List.length_eq_zero.1 hlen
      subst this
      simp [writeLoop]
    · have hspace : 1 ≤ ps - de % ps := by
        have := Nat.mod_lt de hps
        omega
      have hltw1 : 1 ≤ min data.length (ps - de % ps) := by
        have h1 : 1 ≤ data.length := Nat.one_le_iff_ne_zero.2 hlen
        exact le_min h1 hspace
      have hltwle : min data.length (ps - de % ps) ≤ data.length :=
        Nat.min_le_left _ _
      have hrec := ih (de + min data.length (ps - de % ps))
        (data.drop (min data.length (ps - de % ps)))
        (by simp [List.length_drop]; omega)
      simp only [writeLoop, hlen, if_false]
      refine ⟨hrec.1, ?_⟩
      rw [hrec.2]
      simp [List.length_drop]
      omega

/-- With a positive page size the loop writes exactly `data` into the
data region (all its cache writes land at or beyond `ds ≤ dataEnd`). -/
theorem writeLoop_appended (ps le ds : Nat) (hps : 0 < ps) :
    ∀ (fuel de : Nat) (data : List Nat), data.length ≤ fuel → ds ≤ de →
      appendedBytes ds (writeLoop ps le de data fuel).ops = data := by
  intro fuel
  induction fuel with
  | zero =>
    intro de data hfuel hds
    have : data = [] := List.length_eq_zero.1 (Nat.le_zero.1 hfuel)
    subst this
    simp [writeLoop, appendedBytes]
  | succ fuel ih =>
    intro de data hfuel hds
    by_cases hlen : data.length = 0
    · have : data = [] := List.length_eq_zero.1 hlen
      subst this
      simp [writeLoop, appendedBytes]
    · have hspace : 1 ≤ ps - de % ps := by
        have := Nat.mod_lt de hps
        omega
      have h1 : 1 ≤ data.length := Nat.one_le_iff_ne_zero.2 hlen
      have hltw1 : 1 ≤ min data.length (ps - de % ps) := le_min h1 hspace
      simp only [writeLoop, hlen, if_false]
      rw [appendedBytes_append, appendedBytes_cacheWrite_cons _ _ _ _ hds]
      have herase : appendedBytes ds
          (if ps - de % ps ≤ data.length ∧ de + (ps - de % ps) < le then
            [Op.flashErase ((de / ps + 1) * ps)] else []) = [] := by
        split
        · simp [appendedBytes]
        · simp [appendedBytes]
      rw [herase]
      rw [ih (de + min data.length (ps - de % ps))
        (data.drop (min data.length (ps - de % ps)))
        (by simp [List.length_drop]; omega)
        (Nat.le_trans hds (Nat.le_add_right _ _))]
      simp [List.take_append_drop]

/-! ## Characterisation of cleanBuffer -/

theorem arrowAt_spec {s : List Nat} {i : Nat} (h : arrowAt s i = true) :
    i + 2 < s.length ∧ s.getD i 0 = 45 ∧ s.getD (i+1) 0 = 45 ∧ s.getD (i+2) 0 = 62 := by
  simp only [arrowAt, Bool.and_eq_true, decide_eq_true_eq, beq_iff_eq] at h
  exact ⟨h.1.1.1, h.1.1.2, h.1.2, h.2⟩

theorem sepAt_spec {s : List Nat} {rs : Bool} {i : Nat} (h : sepAt s rs i = true) :
    s.getD i 0 = 9 ∨ (rs = true ∧ (s.getD i 0 = 44 ∨ s.getD i 0 = 10)) := by
  simp only [sepAt, Bool.or_eq_true, Bool.and_eq_true, beq_iff_eq] at h
  exact h

theorem sepAt_lt {s : List Nat} {rs : Bool} {i : Nat} (h : sepAt s rs i = true) :
    i < s.length := by
  by_contra hge
  have h0 : s.getD i 0 = 0 := List.getD_eq_default _ _ (Nat.le_of_not_lt hge)
  rcases sepAt_spec h with h9 | ⟨-, h44 | h10⟩ <;> omega

theorem arrow_sep_excl {s : List Nat} {rs : Bool} {i : Nat} (h : arrowAt s i = true) :
    sepAt s rs i = false := by
  by_contra hs
  have hs' : sepAt s rs i = true := by
    cases hsep : sepAt s rs i
    · exact absurd hsep hs
    · rfl
  have h45 := (arrowAt_spec h).2.1
  rcases sepAt_spec hs' with h9 | ⟨-, h44 | h10⟩ <;> omega

theorem triggerAt_false_iff {s : List Nat} {rs : Bool} {i : Nat} :
    triggerAt s rs i = false ↔ arrowAt s i = false ∧ sepAt s rs i = false := by
  simp [triggerAt]

theorem triggerAt_lt {s : List Nat} {rs : Bool} {i : Nat} (h : triggerAt s rs i = true) :
    i < s.length := by
  simp only [triggerAt, Bool.or_eq_true] at h
  rcases h with h | h
  · have := (arrowAt_spec h).1
    omega
  · exact sepAt_lt h

theorem map_range_getD (s : List Nat) :
    (List.range s.length).map (fun p => s.getD p 0) = s := by
  apply List.ext_getElem
  · simp
  · intro i h1 h2
    simp only [List.getElem_map, List.getElem_range]
    exact List.getD_eq_getElem _ _ h2

theorem map_range_getElem? (s : List Nat) :
    (List.range s.length).map (fun p => (s[p]?).getD 0) = s := by
  apply List.ext_getElem
  · simp
  · intro i h1 h2
    simp [List.getElem?_eq_getElem h2]

theorem set_map_range (n : Nat) (f : Nat → Nat) (p v : Nat) :
    ((List.range n).map f).set p v
      = (List.range n).map (fun q => if q = p then v else f q) := by
  apply List.ext_getElem
  · simp
  · intro i h1 h2
    have hi : i < n := by simpa using h2
    rw [List.getElem_set]
    simp only [List.getElem_map, List.getElem_range]
    by_cases hip : p = i
    · subst hip
      simp
    · rw [if_neg hip, if_neg (fun hip2 => hip hip2.symm)]

theorem coveredBelow_succ (s : List Nat) (rs : Bool) (k p : Nat) :
    coveredBelow s rs (k+1) p =
      (coveredBelow s rs k p ||
        ((arrowAt s k && (p == k || p == k + 1 || p == k + 2))
          || (sepAt s rs k && p == k))) := by
  simp [coveredBelow, List.range_succ]

theorem coveredBelow_false (s : List Nat) (rs : Bool) (k p : Nat)
    (h : ∀ i, i < k → triggerAt s rs i = false) :
    coveredBelow s rs k p = false := by
  simp only [coveredBelow]
  rw [List.any_eq_false]
  intro i hi
  have hfalse := (triggerAt_false_iff.1 (h i (List.mem_range.1 hi)))
  simp [hfalse.1, hfalse.2]

theorem cleanStep_of_arrow {s : List Nat} {rs : Bool} {k : Nat}
    (ha : arrowAt s k = true) (hsep : sepAt s rs k = false) (out : List Nat) :
    cleanStep s rs out k =
      (((if out.length = 0 then s else out).set k invalidCharValue).set (k+1)
        invalidCharValue).set (k+2) invalidCharValue := by
  simp [cleanStep, ha, hsep]

theorem cleanStep_of_sep {s : List Nat} {rs : Bool} {k : Nat}
    (ha : arrowAt s k = false) (hsep : sepAt s rs k = true) (out : List Nat) :
    cleanStep s rs out k = (if out.length = 0 then s else out).set k invalidCharValue := by
  simp [cleanStep, ha, hsep]

theorem cleanStep_of_none {s : List Nat} {rs : Bool} {k : Nat}
    (ha : arrowAt s k = false) (hsep : sepAt s rs k = false) (out : List Nat) :
    cleanStep s rs out k = out := by
  simp [cleanStep, ha, hsep]

/-- The prefix invariant of `cleanBuffer`'s scan: after processing
indices below `k`, the accumulator is empty when no replacement has
fired, and otherwise is the input overwritten at every position covered
by a fired replacement. -/
theorem cleanFold_eq (s : List Nat) (rs : Bool) (k : Nat) :
    (List.range k).foldl (cleanStep s rs) [] =
      (if (List.range k).any (triggerAt s rs) then
        (List.range s.length).map fun p =>
          if coveredBelow s rs k p then invalidCharValue else s.getD p 0
      else []) := by
  induction k with
  | zero => simp
  | succ k ih =>
    rw [List.range_succ, List.foldl_append, List.any_append, ih]
    simp only [List.foldl_cons, List.foldl_nil, List.any_cons, List.any_nil, Bool.or_false]
    cases hTb : triggerAt s rs k with
    | false =>
      obtain ⟨ha, hsep⟩ := triggerAt_false_iff.1 hTb
      rw [cleanStep_of_none ha hsep]
      have hcov : ∀ p, coveredBelow s rs (k+1) p = coveredBelow s rs k p := by
        intro p
        rw [coveredBelow_succ]
        simp [ha, hsep]
      simp only [hcov]
      simp
    | true =>
      have hklen : k < s.length := triggerAt_lt hTb
      have hlen0 : s.length ≠ 0 := by omega
      have ho : (if (if (List.range k).any (triggerAt s rs) = true then
            (List.range s.length).map fun p =>
              if coveredBelow s rs k p then invalidCharValue else s.getD p 0
          else []).length = 0 then s
          else (if (List.range k).any (triggerAt s rs) = true then
            (List.range s.length).map fun p =>
              if coveredBelow s rs k p then invalidCharValue else s.getD p 0
          else [])) =
          (List.range s.length).map fun p =>
            if coveredBelow s rs k p then invalidCharValue else s.getD p 0 := by
        cases hA : (List.range k).any (triggerAt s rs) with
        | false =>
          have hnone : ∀ i, i < k → triggerAt s rs i = false := by
            intro i hi
            have := List.any_eq_false.1 hA i (List.mem_range.2 hi)
            cases htr : triggerAt s rs i
            · rfl
            · exact absurd htr this
          have hcovf : ∀ p, coveredBelow s rs k p = false :=
            fun p => coveredBelow_false s rs k p hnone
          simp [hA, hcovf, map_range_getElem?]
        | true =>
          simp [hA, hlen0]
      cases ha : arrowAt s k with
      | true =>
        have hsep : sepAt s rs k = false := arrow_sep_excl ha
        rw [cleanStep_of_arrow ha hsep, ho, set_map_range, set_map_range, set_map_range]
        simp only [hTb, Bool.or_true, if_true]
        apply List.map_congr_left
        intro q hq
        rw [coveredBelow_succ]
        simp only [ha, hsep, Bool.true_and, Bool.false_and, Bool.or_false]
        by_cases h1 : q = k + 2 <;> by_cases h2 : q = k + 1 <;> by_cases h3 : q = k <;>
          by_cases h4 : coveredBelow s rs k q = true <;>
          simp [h1, h2, h3, h4]
      | false =>
        have hsep : sepAt s rs k = true := by
          cases hsb : sepAt s rs k
          · rw [triggerAt, ha, hsb] at hTb
            simp at hTb
          · rfl
        rw [cleanStep_of_sep ha hsep, ho, set_map_range]
        simp only [hTb, Bool.or_true, if_true]
        apply List.map_congr_left
        intro q hq
        rw [coveredBelow_succ]
        simp only [ha, hsep, Bool.true_and, Bool.false_and, Bool.false_or]
        by_cases h3 : q = k <;> by_cases h4 : coveredBelow s rs k q = true <;>
          simp [h3, h4]

/-- `cleanBuffer` equals its closed-form description. -/
theorem cleanBuffer_eq_model (s : List Nat) (rs : Bool) :
    cleanBuffer s rs = cleanModel s rs := by
  rw [cleanBuffer, cleanModel, cleanFold_eq]

/-- When no replacement fires anywhere, `cleanBuffer` returns the empty
string. -/
theorem cleanBuffer_nil_of_noTrigger {s : List Nat} {rs : Bool}
    (h : ∀ i, triggerAt s rs i = false) : cleanBuffer s rs = [] := by
  rw [cleanBuffer_eq_model, cleanModel]
  have hany : (List.range s.length).any (triggerAt s rs) = false := by
    rw [List.any_eq_false]
    intro i _
    simp [h i]
  simp [hany]

/-- When some replacement fires, `cleanBuffer` has the input's length. -/
theorem cleanBuffer_length_of_trigger {s : List Nat} {rs : Bool}
    (h : (List.range s.length).any (triggerAt s rs) = true) :
    (cleanBuffer s rs).length = s.length := by
  rw [cleanBuffer_eq_model, cleanModel, if_pos h]
  simp

/-- Empty output characterises "no replacement fires". -/
theorem cleanBuffer_nil_iff {s : List Nat} {rs : Bool} :
    cleanBuffer s rs = [] ↔ (List.range s.length).any (triggerAt s rs) = false := by
  constructor
  · intro hnil
    cases hany : (List.range s.length).any (triggerAt s rs) with
    | false => rfl
    | true =>
      obtain ⟨i, hi, htr⟩ := List.any_eq_true.1 hany
      have hlen : 0 < s.length := Nat.lt_of_le_of_lt (Nat.zero_le _) (triggerAt_lt htr)
      have := cleanBuffer_length_of_trigger hany
      rw [hnil] at this
      simp at this
      omega
  · intro hany
    rw [cleanBuffer_eq_model, cleanModel, if_neg (by simp [hany])]

/-- The bytes of a non-trivial `cleanBuffer` result. -/
theorem cleanBuffer_getD {s : List Nat} {rs : Bool}
    (h : (List.range s.length).any (triggerAt s rs) = true) {p : Nat} (hp : p < s.length) :
    (cleanBuffer s rs).getD p 0 =
      if coveredBelow s rs s.length p then invalidCharValue else s.getD p 0 := by
  rw [cleanBuffer_eq_model, cleanModel, if_pos h]
  rw [List.getD_eq_getElem _ _ (by simpa using hp)]
  simp

/-- The effective cleaning preserves length. -/
theorem cleanEff_length (rs : Bool) (s : List Nat) :
    (cleanEff rs s).length = s.length := by
  rw [cleanEff]
  by_cases h : (cleanBuffer s rs).length = 0
  · simp [h]
  · have hany : (List.range s.length).any (triggerAt s rs) = true := by
      cases hany : (List.range s.length).any (triggerAt s rs) with
      | false => exact absurd (by simpa [cleanBuffer_nil_iff] using hany) h
      | true => rfl
    simp only [h, if_neg h]
    exact cleanBuffer_length_of_trigger hany

/-- No replacement fires on the effective cleaning's output. -/
theorem cleanEff_noTrigger (rs : Bool) (s : List Nat) :
    ∀ i, triggerAt (cleanEff rs s) rs i = false := by
  intro i
  by_cases h : (cleanBuffer s rs).length = 0
  · -- nothing fired: the output is the input, on which nothing fires
    have hnil : cleanBuffer s rs = [] := List.length_eq_zero.1 h
    have hany : (List.range s.length).any (triggerAt s rs) = false :=
      cleanBuffer_nil_iff.1 hnil
    have hr : cleanEff rs s = s := by simp [cleanEff, h]
    rw [hr]
    cases htr : triggerAt s rs i with
    | false => rfl
    | true =>
      have hi : i < s.length := triggerAt_lt htr
      have := List.any_eq_false.1 hany i (List.mem_range.2 hi)
      exact absurd htr this
  · have hany : (List.range s.length).any (triggerAt s rs) = true := by
      cases hany : (List.range s.length).any (triggerAt s rs) with
      | false => exact absurd (by simpa [cleanBuffer_nil_iff] using hany) h
      | true => rfl
    have hr : cleanEff rs s = cleanBuffer s rs := by simp [cleanEff, h]
    have hrlen : (cleanEff rs s).length = s.length := cleanEff_length rs s
    rw [hr] at hrlen ⊢
    -- no arrow can survive
    cases htr : triggerAt (cleanBuffer s rs) rs i with
    | false => rfl
    | true =>
      exfalso
      have htr2 : arrowAt (cleanBuffer s rs) i = true
          ∨ sepAt (cleanBuffer s rs) rs i = true := by
        simpa [triggerAt] using htr
      rcases htr2 with harr | hsep
      · obtain ⟨hlt, h45a, h45b, h62⟩ := arrowAt_spec harr
        rw [hrlen] at hlt
        have e0 := cleanBuffer_getD hany (p := i) (by omega)
        have e1 := cleanBuffer_getD hany (p := i + 1) (by omega)
        have e2 := cleanBuffer_getD hany (p := i + 2) (by omega)
        rw [h45a] at e0
        rw [h45b] at e1
        rw [h62] at e2
        have hc0 : coveredBelow s rs s.length i = false := by
          cases hc : coveredBelow s rs s.length i with
          | false => rfl
          | true => rw [hc] at e0; simp [invalidCharValue] at e0
        have hc1 : coveredBelow s rs s.length (i+1) = false := by
          cases hc : coveredBelow s rs s.length (i+1) with
          | false => rfl
          | true => rw [hc] at e1; simp [invalidCharValue] at e1
        have hc2 : coveredBelow s rs s.length (i+2) = false := by
          cases hc : coveredBelow s rs s.length (i+2) with
          | false => rfl
          | true => rw [hc] at e2; simp [invalidCharValue] at e2
        rw [hc0] at e0
        rw [hc1] at e1
        rw [hc2] at e2
        have f0 : s.getD i 0 = 45 := by simpa using e0.symm
        have f1 : s.getD (i+1) 0 = 45 := by simpa using e1.symm
        have f2 : s.getD (i+2) 0 = 62 := by simpa using e2.symm
        have harrS : arrowAt s i = true := by
          simp only [arrowAt, Bool.and_eq_true, decide_eq_true_eq, beq_iff_eq]
          exact ⟨⟨⟨hlt, f0⟩, f1⟩, f2⟩
        have hcov : coveredBelow s rs s.length i = true := by
          rw [coveredBelow]
          rw [List.any_eq_true]
          refine ⟨i, List.mem_range.2 (by omega), ?_⟩
          simp [harrS]
        rw [hcov] at hc0
        cases hc0
      · have hlt : i < s.length := by
          have := sepAt_lt hsep
          omega
        have e0 := cleanBuffer_getD hany (p := i) hlt
        have hc0 : coveredBelow s rs s.length i = false := by
          cases hc : coveredBelow s rs s.length i with
          | false => rfl
          | true =>
            rw [hc] at e0
            simp only [if_true] at e0
            rcases sepAt_spec hsep with h9 | ⟨-, h44 | h10⟩ <;>
              rw [e0] at * <;> simp_all [invalidCharValue]
        rw [hc0] at e0
        have f0 : (cleanBuffer s rs).getD i 0 = s.getD i 0 := by simpa using e0
        have hsepS : sepAt s rs i = true := by
          simp only [sepAt, Bool.or_eq_true, Bool.and_eq_true, beq_iff_eq]
          rcases sepAt_spec hsep with h9 | ⟨hrs, h44 | h10⟩
          · rw [f0] at h9
            exact Or.inl h9
          · rw [f0] at h44
            exact Or.inr ⟨hrs, Or.inl h44⟩
          · rw [f0] at h10
            exact Or.inr ⟨hrs, Or.inr h10⟩
        have hcov : coveredBelow s rs s.length i = true := by
          rw [coveredBelow]
          rw [List.any_eq_true]
          refine ⟨i, List.mem_range.2 hlt, ?_⟩
          simp [hsepS]
        rw [hcov] at hc0
        cases hc0

/-- Cleaning the effective cleaning's output reports "no change". -/
theorem cleanBuffer_cleanEff (rs : Bool) (s : List Nat) :
    cleanBuffer (cleanEff rs s) rs = [] :=
  cleanBuffer_nil_of_noTrigger (cleanEff_noTrigger rs s)

/-! ## Lemmas about the mount scan -/

/-- The address-strided loop equals the list scan over the entries it
visits. -/
theorem scanLoop_eq_scanEntries (mem : Nat → Nat) (ds : Nat) :
    ∀ (fuel addr jh de : Nat) (valid : Bool),
      scanLoop mem ds fuel addr jh de valid =
        scanEntries ds (entriesView mem ds fuel addr) addr jh de valid := by
  intro fuel
  induction fuel with
  | zero => intro addr jh de valid; simp [scanLoop, entriesView, scanEntries]
  | succ fuel ih =>
    intro addr jh de valid
    by_cases haddr : addr < ds
    · simp only [scanLoop, entriesView, if_pos haddr, scanEntries]
      by_cases hA : (containsOnly (entryAt mem addr) 255 && valid) = true
      · simp [hA]
      · by_cases hB : containsOnly (entryAt mem addr) 0 = true
        · simp [hA, hB, ih]
        · simp [hA, hB, ih]
    · simp [scanLoop, entriesView, scanEntries, haddr]

/-- All-0x00 (invalidated) entries are skipped without touching the
accumulated state. -/
theorem scanEntries_zeros (ds : Nat) (zs : List (List Nat)) :
    ∀ (rest : List (List Nat)) (addr jh de : Nat) (valid : Bool),
      (∀ j ∈ zs, containsOnly j 0 = true ∧ containsOnly j 255 = false) →
      scanEntries ds (zs ++ rest) addr jh de valid =
        scanEntries ds rest (addr + journalEntrySize * zs.length) jh de valid := by
  induction zs with
  | nil => intro rest addr jh de valid _; simp
  | cons z zs ih =>
    intro rest addr jh de valid hz
    have hz0 := hz z (List.mem_cons_self _ _)
    have hzs : ∀ j ∈ zs, containsOnly j 0 = true ∧ containsOnly j 255 = false :=
      fun j hj => hz j (List.mem_cons_of_mem _ hj)
    simp only [List.cons_append, scanEntries, hz0.1, hz0.2, Bool.false_and, if_pos,
      Bool.false_eq_true, if_false, if_true]
    rw [List.append_eq, ih rest (addr + journalEntrySize) jh de valid hzs]
    congr 1
    simp only [List.length_cons]
    ring

/-- A live (not all-0x00, not all-0xFF) entry updates the head, the data
end and the valid flag, and the scan continues. -/
theorem scanEntries_live (ds : Nat) (l : List Nat) (rest : List (List Nat))
    (addr jh de : Nat) (valid : Bool)
    (h0 : containsOnly l 0 = false) (h255 : containsOnly l 255 = false) :
    scanEntries ds (l :: rest) addr jh de valid =
      scanEntries ds rest (addr + journalEntrySize) addr (ds + parseHexEntry l) true := by
  simp [scanEntries, h0, h255]

/-- Once the valid flag is set, a trailing run of erased entries stops
the scan with the accumulated state (also when the ring is exhausted). -/
theorem scanEntries_stop (ds : Nat) (fs : List (List Nat)) (addr jh de : Nat)
    (hf : ∀ j ∈ fs, containsOnly j 255 = true) :
    scanEntries ds fs addr jh de true = (jh, de) := by
  cases fs with
  | nil => simp [scanEntries]
  | cons f fs => simp [scanEntries, hf f (List.mem_cons_self _ _)]

/-- A run of live entries followed by one more live entry: the scan
records the address of the last one and its parsed value. -/
theorem scanEntries_lives (ds : Nat) (ls0 : List (List Nat)) :
    ∀ (llast : List Nat) (rest : List (List Nat)) (addr jh de : Nat) (valid : Bool),
      (∀ j ∈ ls0, containsOnly j 0 = false ∧ containsOnly j 255 = false) →
      containsOnly llast 0 = false → containsOnly llast 255 = false →
      scanEntries ds (ls0 ++ llast :: rest) addr jh de valid =
        scanEntries ds rest (addr + journalEntrySize * (ls0.length + 1))
          (addr + journalEntrySize * ls0.length) (ds + parseHexEntry llast) true := by
  induction ls0 with
  | nil =>
    intro llast rest addr jh de valid _ h0 h255
    simp only [List.nil_append, List.length_nil, Nat.mul_zero, Nat.add_zero,
      Nat.zero_add, Nat.mul_one]
    exact scanEntries_live ds llast rest addr jh de valid h0 h255
  | cons l ls ih =>
    intro llast rest addr jh de valid hl h0 h255
    have hl0 := hl l (List.mem_cons_self _ _)
    have hls : ∀ j ∈ ls, containsOnly j 0 = false ∧ containsOnly j 255 = false :=
      fun j hj => hl j (List.mem_cons_of_mem _ hj)
    rw [List.cons_append, scanEntries_live ds l _ addr jh de valid hl0.1 hl0.2]
    rw [ih llast rest (addr + journalEntrySize) addr (ds + parseHexEntry l) true hls h0
      h255]
    have e1 : addr + journalEntrySize + journalEntrySize * (ls.length + 1)
        = addr + journalEntrySize * ((l :: ls).length + 1) := by
      simp only [List.length_cons]
      ring
    have e2 : addr + journalEntrySize + journalEntrySize * ls.length
        = addr + journalEntrySize * (l :: ls).length := by
      simp only [List.length_cons]
      ring
    rw [e1, e2]

/-- The byte scan finds the first erased byte: its result is the least
address at or after the start whose byte is 0xFF, capped at `logEnd`. -/
theorem byteScan_spec (mem : Nat → Nat) (le : Nat) :
    ∀ (fuel de : Nat), le - de ≤ fuel → de ≤ le →
      de ≤ byteScan mem le fuel de ∧ byteScan mem le fuel de ≤ le ∧
      (∀ a, de ≤ a → a < byteScan mem le fuel de → mem a ≠ 255) ∧
      (byteScan mem le fuel de < le → mem (byteScan mem le fuel de) = 255) := by
  intro fuel
  induction fuel with
  | zero =>
    intro de hfuel hde
    have hdele : de = le := by omega
    subst hdele
    simp [byteScan]
    omega
  | succ fuel ih =>
    intro de hfuel hde
    by_cases hlt : de < le
    · rw [byteScan, if_pos hlt]
      cases hm : mem de == 255 with
      | true =>
        have hm' : mem de = 255 := by simpa using hm
        simp only [if_pos rfl, if_true]
        exact ⟨Nat.le_refl de, Nat.le_of_lt hlt, fun a ha1 ha2 => absurd ha1 (by omega),
          fun _ => hm'⟩
      | false =>
        have hm' : mem de ≠ 255 := by simpa using hm
        simp only [Bool.false_eq_true, if_false]
        obtain ⟨p1, p2, p3, p4⟩ := ih (de + 1) (by omega) (by omega)
        refine ⟨by omega, p2, ?_, p4⟩
        intro a ha1 ha2
        by_cases hade : a = de
        · subst hade
          exact hm'
        · exact p3 a (by omega) ha2
    · rw [byteScan, if_neg hlt]
      have : de = le := by omega
      subst this
      exact ⟨Nat.le_refl _, Nat.le_refl _, fun a ha1 ha2 => absurd ha2 (by omega),
        fun h => absurd h (by omega)⟩

/-! ## Support lemmas for the logString and row theorems -/

theorem commitStep_eq (st : LogState) :
    commitStep st =
      ({st with journalHead := jhAfter st},
        (if (st.journalHead + journalEntrySize) % st.pageSize = 0 then
          [Op.cacheErase (jhAfter st), Op.flashErase (jhAfter st)] else []) ++
        [Op.cacheWrite (jhAfter st)
            (writeNum (((st.dataEnd - st.dataStart) / cacheBlockSize) * cacheBlockSize)),
          Op.cacheWrite st.journalHead (List.replicate journalEntrySize 0)]) := rfl

/-- Under the journal invariants the advanced head stays inside the
journal region. -/
theorem jhAfter_range (st : LogState)
    (hjh1 : st.journalStart ≤ st.journalHead)
    (hjh2 : st.journalHead + journalEntrySize ≤ st.dataStart)
    (hal : st.dataStart % st.pageSize = 0) :
    st.journalStart ≤ jhAfter st ∧ jhAfter st < st.dataStart := by
  have hj8 : journalEntrySize = 8 := rfl
  have hjs : st.journalStart < st.dataStart := by omega
  unfold jhAfter
  by_cases hb : (st.journalHead + journalEntrySize) % st.pageSize = 0
  · by_cases hw : st.journalHead + journalEntrySize = st.dataStart
    · rw [if_pos hb, if_pos hw]
      omega
    · rw [if_pos hb, if_neg hw]
      omega
  · rw [if_neg hb]
    by_cases hw : st.journalHead + journalEntrySize = st.dataStart
    · rw [hw] at hb
      exact absurd hal hb
    · omega

/-- The journal-commit trace adds nothing to the data region. -/
theorem appendedBytes_commitStep (ds : Nat) (st : LogState)
    (h1 : jhAfter st < ds) (h2 : st.journalHead < ds) :
    appendedBytes ds (commitStep st).2 = [] := by
  rw [commitStep_eq]
  dsimp only
  rw [appendedBytes_append]
  have he : appendedBytes ds
      (if (st.journalHead + journalEntrySize) % st.pageSize = 0 then
        [Op.cacheErase (jhAfter st), Op.flashErase (jhAfter st)] else []) = [] := by
    split <;> simp [appendedBytes]
  rw [he]
  simp [appendedBytes, Nat.not_le.2 h1, Nat.not_le.2 h2]

/-- `logString` on the non-FULL path, with the cleaned data and the loop
output abstracted. -/
theorem logString_nonfull (st : LogState) (s data : List Nat) (w : WLOut)
    (hfit : ¬ (st.logEnd - st.dataEnd < s.length))
    (hdata : data = if (cleanBuffer s false).length ≠ 0 then cleanBuffer s false else s)
    (hw : w = writeLoop st.pageSize st.logEnd st.dataEnd data data.length) :
    logString st s =
      (if w.dataEnd / cacheBlockSize ≠ st.dataEnd / cacheBlockSize then
        ((if w.rem.length = 0 then RetCode.ok else RetCode.noResources),
          (commitStep {st with dataEnd := w.dataEnd}).1,
          w.ops ++ (commitStep {st with dataEnd := w.dataEnd}).2)
      else
        ((if w.rem.length = 0 then RetCode.ok else RetCode.noResources),
          {st with dataEnd := w.dataEnd}, w.ops)) := by
  subst hdata
  subst hw
  simp only [logString, if_neg hfit]

/-- `setColumn` on an absent key returns the row unchanged with
`added = false`. -/
theorem setColumn_not_mem :
    ∀ (l : List (List Nat × List Nat)) (key value : List Nat),
      (l.any fun kv => kv.1 == key) = false → setColumn l key value = (l, false) := by
  intro l
  induction l with
  | nil => intro key value _; rfl
  | cons kv rest ih =>
    intro key value hany
    simp only [List.any_cons, Bool.or_eq_false_iff] at hany
    have hne : kv.1 ≠ key := by
      intro he
      rw [he] at hany
      simp at hany
    simp only [setColumn, if_neg hne]
    rw [ih key value hany.2]

/-- No replacement fires on a string free of tabs, arrows and (when
separators are removed) commas and newlines. -/
theorem noTrigger_of_bytes {s : List Nat} {rs : Bool}
    (h9 : (9 : Nat) ∉ s)
    (harrow : ∀ i, arrowAt s i = false)
    (hsepb : rs = true → (44 : Nat) ∉ s ∧ (10 : Nat) ∉ s) :
    ∀ i, triggerAt s rs i = false := by
  intro i
  cases htr : triggerAt s rs i with
  | false => rfl
  | true =>
    exfalso
    have htr2 : arrowAt s i = true ∨ sepAt s rs i = true := by
      simpa [triggerAt] using htr
    rcases htr2 with harr | hsep
    · rw [harrow i] at harr
      cases harr
    · have hi : i < s.length := sepAt_lt hsep
      have hmem : s.getD i 0 ∈ s := by
        rw [List.getD_eq_getElem _ _ hi]
        exact List.getElem_mem hi
      rcases sepAt_spec hsep with hv | ⟨hrs, hv | hv⟩
      · rw [hv] at hmem
        exact h9 hmem
      · rw [hv] at hmem
        exact (hsepb hrs).1 hmem
      · rw [hv] at hmem
        exact (hsepb hrs).2 hmem

/-- Decimal rendering of a number below 100 takes at most two digits. -/
theorem natDec_length_le_two : ∀ n < 100, (natDec n).length ≤ 2 := by decide

/-! ## Claim theorems -/

/-- C5 (counterexample): `cleanBuffer` itself is neither
length-preserving nor idempotent: on an input needing no change ("ab")
it returns the empty string, shrinking the length; on "a\t" it returns
"a#", and cleaning that again returns the empty string, not "a#"
again. -/
theorem c5_cleanBuffer_counterexample :
    (cleanBuffer (strBytes "ab") false).length ≠ (strBytes "ab").length ∧
    (cleanBuffer (strBytes "ab") true).length ≠ (strBytes "ab").length ∧
    cleanBuffer (cleanBuffer (strBytes "a\t") false) false
      ≠ cleanBuffer (strBytes "a\t") false ∧
    cleanBuffer (cleanBuffer (strBytes "a\t") true) true
      ≠ cleanBuffer (strBytes "a\t") true := by
  decide

/-- C5 (amended): the effective cleaning used by every caller — the
`cleanBuffer` output when it is nonempty, the original bytes when
`cleanBuffer` returns the empty "no change needed" string — is
idempotent and length-preserving, for both values of
`removeSeparators`. -/
theorem c5_cleanEff_idempotent_and_length (rs : Bool) (s : List Nat) :
    cleanEff rs (cleanEff rs s) = cleanEff rs s ∧
    (cleanEff rs s).length = s.length := by
  constructor
  · have h := cleanBuffer_cleanEff rs s
    conv_lhs => rw [cleanEff]
    simp [h]
  · exact cleanEff_length rs s

/-- C8 (counterexample): `logData` on a log with the FULL bit latched
still returns DEVICE_OK, not DEVICE_NO_RESOURCES — the claim's "returns
no_resources when the log cannot accept the data" is false. -/
theorem c8_logData_full_counterexample :
    ({sampleState with statusFull := true} : LogState).statusFull = true ∧
    (logData {sampleState with statusFull := true} (strBytes "k") (strBytes "v")).1
      ≠ RetCode.noResources := by
  decide

/-- C8 (amended): `logData` always returns DEVICE_OK — in particular it
returns ok (so trivially ok-or-no-resources) even when FULL is latched
or the append would not fit; resource exhaustion is reported by
`endRow`/`logString`, not by `logData`. -/
theorem c8_logData_always_ok (st : LogState) (key value : List Nat) :
    (logData st key value).1 = RetCode.ok ∧
    ((logData st key value).1 = RetCode.ok ∨
      (logData st key value).1 = RetCode.noResources) :=
  ⟨rfl, Or.inl rfl⟩

/-- C10: `endRow` clears the ROW_STARTED bit unconditionally before its
FULL check, so the row is closed even when `endRow` reports
no-resources, and an immediately following `endRow` returns
DEVICE_INVALID_STATE (never DEVICE_NO_RESOURCES). -/
theorem c10_endRow_closes_row (st : LogState) (t t2 : Nat)
    (h : st.rowStarted = true) :
    (endRow t st).2.1.rowStarted = false ∧
    (endRow t2 (endRow t st).2.1).1 = RetCode.invalidState := by
  have h1 : (endRow t st).2.1.rowStarted = false := by
    rw [endRow, if_neg (by simp [h])]
  refine ⟨h1, ?_⟩
  rw [endRow, if_pos h1]

/-- Witness for C10 at a concrete open-row state. -/
theorem c10_endRow_closes_row_witness :
    ({sampleState with rowStarted := true} : LogState).rowStarted = true ∧
    ((endRow 5 {sampleState with rowStarted := true}).2.1.rowStarted = false ∧
      (endRow 6 (endRow 5 {sampleState with rowStarted := true}).2.1).1
        = RetCode.invalidState) :=
  ⟨rfl, c10_endRow_closes_row {sampleState with rowStarted := true} 5 6 rfl⟩

/-- C7: `setTimeStamp` with the `Days` unit ensures a heading named
"Time (hours)" exists (the `Days` switch case reuses the "hours"
label), creating the column exactly when it is absent; the other
non-None units each select their own label. -/
theorem c7_setTimeStamp_days (st : LogState) :
    unitsLabel TimeStampFormat.Days = some (strBytes "hours") ∧
    unitsLabel TimeStampFormat.Milliseconds = some (strBytes "milliseconds") ∧
    unitsLabel TimeStampFormat.Seconds = some (strBytes "seconds") ∧
    unitsLabel TimeStampFormat.Minutes = some (strBytes "minutes") ∧
    unitsLabel TimeStampFormat.Hours = some (strBytes "hours") ∧
    ((setTimeStamp st TimeStampFormat.Days).rowData.any
      (fun kv => kv.1 == strBytes "Time (hours)")) = true ∧
    ((st.rowData.any fun kv => kv.1 == strBytes "Time (hours)") = false →
      (setTimeStamp st TimeStampFormat.Days).rowData
        = st.rowData ++ [(strBytes "Time (hours)", [])]) ∧
    ((st.rowData.any fun kv => kv.1 == strBytes "Time (hours)") = true →
      (setTimeStamp st TimeStampFormat.Days).rowData = st.rowData) := by
  have hh : strBytes "Time (" ++ strBytes "hours" ++ strBytes ")"
      = strBytes "Time (hours)" := by decide
  have hst : setTimeStamp st TimeStampFormat.Days
      = addHeading
          {{st with timeStampFormat := TimeStampFormat.Days} with
            timeStampHeading := strBytes "Time (hours)"}
          (strBytes "Time (hours)") [] := by
    rw [setTimeStamp]
    simp only [unitsLabel]
    rw [hh]
  refine ⟨rfl, rfl, rfl, rfl, rfl, ?_, ?_, ?_⟩
  · rw [hst, addHeading]
    by_cases hmem : (st.rowData.any fun kv => kv.1 == strBytes "Time (hours)") = true
    · rw [if_pos (by simpa using hmem)]
      simpa using hmem
    · rw [if_neg (by simpa using hmem)]
      simp
  · intro hmem
    rw [hst, addHeading, if_neg (by simp [hmem])]
  · intro hmem
    rw [hst, addHeading, if_pos (by simpa using hmem)]

/-- Witness for C7 on a concrete state without the "Time (hours)"
column. -/
theorem c7_setTimeStamp_days_witness :
    (sampleState.rowData.any fun kv => kv.1 == strBytes "Time (hours)") = false ∧
    (setTimeStamp sampleState TimeStampFormat.Days).rowData
      = sampleState.rowData ++ [(strBytes "Time (hours)", [])] :=
  ⟨rfl, (c7_setTimeStamp_days sampleState).2.2.2.2.2.2.1 rfl⟩

/-- C9: on inputs with no tab byte, no "-->" occurrence, and (for the
delimited-field cleaning) no comma or newline, `cleanBuffer` returns the
empty string, and the callers treat that as "no change needed":
`logString` appends exactly the original bytes of `s` to the data
region and `logData` stores the original key and value. -/
theorem c9_clean_empty_is_no_change (st : LogState) (s k v : List Nat)
    (hps : 0 < st.pageSize)
    (hfit : s.length ≤ st.logEnd - st.dataEnd)
    (hds : st.dataStart ≤ st.dataEnd)
    (hjh1 : st.journalStart ≤ st.journalHead)
    (hjh2 : st.journalHead + journalEntrySize ≤ st.dataStart)
    (hal : st.dataStart % st.pageSize = 0)
    (hrow : st.rowStarted = true)
    (hnew : (st.rowData.any fun kv => kv.1 == k) = false)
    (hs9 : (9 : Nat) ∉ s) (hsarrow : ∀ i, arrowAt s i = false)
    (hk9 : (9 : Nat) ∉ k) (hkarrow : ∀ i, arrowAt k i = false)
    (hk44 : (44 : Nat) ∉ k) (hk10 : (10 : Nat) ∉ k)
    (hv9 : (9 : Nat) ∉ v) (hvarrow : ∀ i, arrowAt v i = false)
    (hv44 : (44 : Nat) ∉ v) (hv10 : (10 : Nat) ∉ v) :
    cleanBuffer s false = [] ∧
    appendedBytes st.dataStart (logString st s).2.2 = s ∧
    cleanBuffer k true = [] ∧ cleanBuffer v true = [] ∧
    (logData st k v).2.rowData = st.rowData ++ [(k, v)] := by
  have hnil_s : cleanBuffer s false = [] :=
    cleanBuffer_nil_of_noTrigger
      (noTrigger_of_bytes hs9 hsarrow (fun h => absurd h (by simp)))
  have hnil_k : cleanBuffer k true = [] :=
    cleanBuffer_nil_of_noTrigger
      (noTrigger_of_bytes hk9 hkarrow (fun _ => ⟨hk44, hk10⟩))
  have hnil_v : cleanBuffer v true = [] :=
    cleanBuffer_nil_of_noTrigger
      (noTrigger_of_bytes hv9 hvarrow (fun _ => ⟨hv44, hv10⟩))
  have hj8 : journalEntrySize = 8 := rfl
  refine ⟨hnil_s, ?_, hnil_k, hnil_v, ?_⟩
  · have hnfull : ¬ (st.logEnd - st.dataEnd < s.length) := Nat.not_lt.2 hfit
    rw [logString_nonfull st s _ _ hnfull rfl rfl]
    have hdataeq : (if (cleanBuffer s false).length ≠ 0 then cleanBuffer s false else s)
        = s := by
      rw [hnil_s]
      simp
    rw [hdataeq]
    set w := writeLoop st.pageSize st.logEnd st.dataEnd s s.length with hw
    have happ : appendedBytes st.dataStart w.ops = s := by
      rw [hw]
      exact writeLoop_appended st.pageSize st.logEnd st.dataStart hps s.length st.dataEnd
        s (Nat.le_refl _) hds
    by_cases hc : w.dataEnd / cacheBlockSize ≠ st.dataEnd / cacheBlockSize
    · rw [if_pos hc]
      dsimp only
      rw [appendedBytes_append, happ]
      have hjc : jhAfter {st with dataEnd := w.dataEnd} = jhAfter st := rfl
      have hcommit : appendedBytes st.dataStart
          (commitStep {st with dataEnd := w.dataEnd}).2 = [] := by
        apply appendedBytes_commitStep
        · rw [hjc]
          exact (jhAfter_range st hjh1 hjh2 hal).2
        · show st.journalHead < st.dataStart
          omega
      rw [hcommit]
      simp
    · rw [if_neg hc]
      dsimp only
      exact happ
  · have hsc := setColumn_not_mem st.rowData k v hnew
    simp [logData, hrow, hnil_k, hnil_v, hsc, addHeading, hnew]

/-- Bounded check suffices for "no arrow anywhere". -/
theorem arrowAt_false_of_forall_lt {s : List Nat}
    (h : ∀ i, i < s.length → arrowAt s i = false) : ∀ i, arrowAt s i = false := by
  intro i
  by_cases hi : i < s.length
  · exact h i hi
  · cases ha : arrowAt s i with
    | false => rfl
    | true => exact absurd (arrowAt_spec ha).1 (by omega)

/-- Witness for C9 on a concrete open-row log and clean inputs. -/
theorem c9_clean_empty_is_no_change_witness :
    ((9 : Nat) ∉ strBytes "hello\n" ∧
      ({sampleState with rowStarted := true} : LogState).rowStarted = true) ∧
    (cleanBuffer (strBytes "hello\n") false = [] ∧
      appendedBytes ({sampleState with rowStarted := true} : LogState).dataStart
          (logString {sampleState with rowStarted := true} (strBytes "hello\n")).2.2
        = strBytes "hello\n" ∧
      cleanBuffer (strBytes "key") true = [] ∧
      cleanBuffer (strBytes "val") true = [] ∧
      (logData {sampleState with rowStarted := true} (strBytes "key")
          (strBytes "val")).2.rowData
        = ({sampleState with rowStarted := true} : LogState).rowData
          ++ [(strBytes "key", strBytes "val")]) :=
  ⟨⟨by decide, rfl⟩,
    c9_clean_empty_is_no_change {sampleState with rowStarted := true}
      (strBytes "hello\n") (strBytes "key") (strBytes "val")
      (by decide) (by decide) (by decide) (by decide) (by decide) (by decide) rfl rfl
      (by decide) (arrowAt_false_of_forall_lt (by decide))
      (by decide) (arrowAt_false_of_forall_lt (by decide)) (by decide) (by decide)
      (by decide) (arrowAt_false_of_forall_lt (by decide)) (by decide) (by decide)⟩

/-- C3 (counterexample): once FULL is latched a subsequent append does
NOT necessarily return no-resources: with the FULL bit set but room for
one byte, `logString "a"` succeeds with DEVICE_OK.  The claim's "once
FULL is latched, every subsequent append also returns no_resources and
the stored state is unchanged" fails on the code, whose FULL check is
only the length test. -/
theorem c3_full_counterexample :
    ({sampleState with statusFull := true} : LogState).statusFull = true ∧
    (logString {sampleState with statusFull := true} (strBytes "a")).1
      ≠ RetCode.noResources := by
  decide

/-- C3 (amended): when the string does not fit (`len > logEnd -
dataEnd`), `logString` latches FULL — writing the three ASCII bytes
"FUL" at `logEnd + 1` only the first time, setting the full status bit,
touching nothing else — and returns no-resources; a later append that
still does not fit returns no-resources with no writes and no state
change; but an append that does fit proceeds and returns DEVICE_OK even
with FULL latched. -/
theorem c3_full_latch (st : LogState) (s : List Nat) :
    (st.logEnd - st.dataEnd < s.length → st.statusFull = false →
      logString st s = (RetCode.noResources, {st with statusFull := true},
        [Op.cacheWrite (st.logEnd + 1) (strBytes "FUL")])) ∧
    (st.logEnd - st.dataEnd < s.length → st.statusFull = true →
      logString st s = (RetCode.noResources, st, [])) ∧
    (0 < st.pageSize → s.length ≤ st.logEnd - st.dataEnd →
      (logString st s).1 = RetCode.ok) := by
  refine ⟨?_, ?_, ?_⟩
  · intro hover hfull
    simp only [logString, if_pos hover, hfull]
    simp
  · intro hover hfull
    simp only [logString, if_pos hover, hfull]
    simp
  · intro hps hfit
    rw [logString_nonfull st s _ _ (Nat.not_lt.2 hfit) rfl rfl]
    set D := if (cleanBuffer s false).length ≠ 0 then cleanBuffer s false else s with hD
    have hrem : (writeLoop st.pageSize st.logEnd st.dataEnd D D.length).rem = [] :=
      (writeLoop_run st.pageSize st.logEnd hps D.length st.dataEnd D (Nat.le_refl _)).1
    by_cases hc : (writeLoop st.pageSize st.logEnd st.dataEnd D D.length).dataEnd
        / cacheBlockSize ≠ st.dataEnd / cacheBlockSize
    · rw [if_pos hc]
      simp [hrem]
    · rw [if_neg hc]
      simp [hrem]

/-- Witness for C3 at concrete states: a first overflowing append on a
non-full log, the same append again on the latched log, and a fitting
append on the latched log. -/
theorem c3_full_latch_witness :
    (({sampleState with dataEnd := 65534} : LogState).logEnd - 65534
        < (strBytes "abc").length ∧
      ({sampleState with dataEnd := 65534} : LogState).statusFull = false) ∧
    logString {sampleState with dataEnd := 65534} (strBytes "abc")
      = (RetCode.noResources,
        {({sampleState with dataEnd := 65534} : LogState) with statusFull := true},
        [Op.cacheWrite (({sampleState with dataEnd := 65534} : LogState).logEnd + 1)
          (strBytes "FUL")]) :=
  ⟨⟨by decide, rfl⟩,
    (c3_full_latch {sampleState with dataEnd := 65534} (strBytes "abc")).1
      (by decide) rfl⟩

/-- C6: with the seconds unit, logging the row ("v","hi") and closing
it while the clock reads 12 340 ms appends the header line and the row,
`"Time (seconds),v\n12.34,hi\n"`, to the data region; and for every
non-millisecond unit the timestamp ends in '.' followed by exactly two
zero-padded fractional digits. -/
theorem c6_seconds_row_12_34 :
    appendedBytes sampleState.dataStart
        (endRow 12340 ((logData (setTimeStamp sampleState TimeStampFormat.Seconds)
          (strBytes "v") (strBytes "hi")).2)).2.2
      = strBytes "Time (seconds),v\n12.34,hi\n" ∧
    (∀ u : Nat, (u = TimeStampFormat.Seconds.val ∨ u = TimeStampFormat.Minutes.val
        ∨ u = TimeStampFormat.Hours.val ∨ u = TimeStampFormat.Days.val) →
      ∀ T : Nat, ∃ intPart : List Nat,
        timestampString u T
          = intPart ++ 46 :: padString (natDec (T / u % 1000000000 % 100)) 2 ∧
        (padString (natDec (T / u % 1000000000 % 100)) 2).length = 2) := by
  constructor
  · decide
  · intro u hu T
    have hu1 : u > 1 := by
      rcases hu with h | h | h | h <;> rw [h] <;> decide
    refine ⟨(if T / u / 1000000000 / 100 ≠ 0 then natDec (T / u / 1000000000 / 100)
          else [])
        ++ (if T / u / 1000000000 / 100 ≠ 0
          then padString (natDec (T / u % 1000000000 / 100)) 9
          else natDec (T / u % 1000000000 / 100)), ?_, ?_⟩
    · simp only [timestampString, if_pos hu1]
    · have hx : T / u % 1000000000 % 100 < 100 := Nat.mod_lt _ (by omega)
      have hl := natDec_length_le_two _ hx
      simp only [padString, List.length_append, List.length_replicate]
      omega

/-- Witness for C6's fractional-digit clause at seconds and 12 340 ms. -/
theorem c6_seconds_row_12_34_witness :
    ((10 : Nat) = TimeStampFormat.Seconds.val ∨ 10 = TimeStampFormat.Minutes.val
      ∨ 10 = TimeStampFormat.Hours.val ∨ 10 = TimeStampFormat.Days.val) ∧
    (∃ intPart : List Nat,
      timestampString 10 12340
        = intPart ++ 46 :: padString (natDec (12340 / 10 % 1000000000 % 100)) 2 ∧
      (padString (natDec (12340 / 10 % 1000000000 % 100)) 2).length = 2) :=
  ⟨Or.inl rfl, c6_seconds_row_12_34.2 10 (Or.inl rfl) 12340⟩

/-- C1: on the non-FULL path of `logString`, a journal commit is issued
iff `dataEnd / B` differs between entry and exit; when it is, the trace
ends with the write of the new 8-hex-digit entry, holding
`(dataEnd - dataStart)` rounded down to a multiple of B, at the advanced
journal head, followed — only afterwards — by the all-zero overwrite of
the previous live entry; no other journal-region write occurs. -/
theorem c1_logString_commit_iff (st : LogState) (s : List Nat)
    (hfit : s.length ≤ st.logEnd - st.dataEnd)
    (hds : st.dataStart ≤ st.dataEnd)
    (hjh1 : st.journalStart ≤ st.journalHead)
    (hjh2 : st.journalHead + journalEntrySize ≤ st.dataStart)
    (hal : st.dataStart % st.pageSize = 0) :
    (((logString st s).2.1.dataEnd / cacheBlockSize = st.dataEnd / cacheBlockSize) →
      ∀ op ∈ (logString st s).2.2, ¬ isJournalCacheWrite st op) ∧
    (((logString st s).2.1.dataEnd / cacheBlockSize ≠ st.dataEnd / cacheBlockSize) →
      ∃ pre,
        (logString st s).2.2 = pre
          ++ [Op.cacheWrite ((logString st s).2.1.journalHead)
                (writeNum ((((logString st s).2.1.dataEnd - st.dataStart)
                  / cacheBlockSize) * cacheBlockSize)),
              Op.cacheWrite st.journalHead (List.replicate journalEntrySize 0)] ∧
        isJournalCacheWrite st
          (Op.cacheWrite ((logString st s).2.1.journalHead)
            (writeNum ((((logString st s).2.1.dataEnd - st.dataStart)
              / cacheBlockSize) * cacheBlockSize))) ∧
        (∀ op ∈ pre, ¬ isJournalCacheWrite st op)) := by
  have hnfull : ¬ (st.logEnd - st.dataEnd < s.length) := Nat.not_lt.2 hfit
  rw [logString_nonfull st s _ _ hnfull rfl rfl]
  set D := (if (cleanBuffer s false).length ≠ 0 then cleanBuffer s false else s) with hD
  set w := writeLoop st.pageSize st.logEnd st.dataEnd D D.length with hw
  have hwops : ∀ op ∈ w.ops, ¬ isJournalCacheWrite st op := by
    intro op hop
    rw [hw] at hop
    rcases writeLoop_ops_mem st.pageSize st.logEnd D.length st.dataEnd D op hop with
      ⟨a, bs, rfl, ha⟩ | ⟨a, rfl⟩
    · rintro ⟨a2, d2, heq, hle, hlt⟩
      injection heq with h1 h2
      omega
    · rintro ⟨a2, d2, heq, hle, hlt⟩
      cases heq
  have hcs : commitStep {st with dataEnd := w.dataEnd}
      = ({{st with dataEnd := w.dataEnd} with journalHead := jhAfter st},
        (if (st.journalHead + journalEntrySize) % st.pageSize = 0 then
          [Op.cacheErase (jhAfter st), Op.flashErase (jhAfter st)] else []) ++
        [Op.cacheWrite (jhAfter st)
            (writeNum (((w.dataEnd - st.dataStart) / cacheBlockSize) * cacheBlockSize)),
          Op.cacheWrite st.journalHead (List.replicate journalEntrySize 0)]) := rfl
  by_cases hc : w.dataEnd / cacheBlockSize = st.dataEnd / cacheBlockSize
  · rw [if_neg (not_not_intro hc)]
    constructor
    · intro _ op hop
      exact hwops op hop
    · intro hne
      exact absurd hc hne
  · rw [if_pos hc]
    constructor
    · intro heq
      exact absurd heq hc
    · intro _
      dsimp only
      rw [hcs]
      dsimp only
      refine ⟨w.ops ++ (if (st.journalHead + journalEntrySize) % st.pageSize = 0 then
          [Op.cacheErase (jhAfter st), Op.flashErase (jhAfter st)] else []), ?_, ?_, ?_⟩
      · rw [List.append_assoc]
      · exact ⟨jhAfter st, _, rfl, (jhAfter_range st hjh1 hjh2 hal).1,
          (jhAfter_range st hjh1 hjh2 hal).2⟩
      · intro op hop
        rcases List.mem_append.1 hop with h | h
        · exact hwops op h
        · revert h
          split
          · intro h
            rcases List.mem_cons.1 h with rfl | h2
            · rintro ⟨a2, d2, heq, -, -⟩
              cases heq
            · rcases List.mem_singleton.1 h2 with rfl
              rintro ⟨a2, d2, heq, -, -⟩
              cases heq
          · intro h
            cases h

/-- Witness for C1: a one-byte append that crosses a block boundary
commits, with the new entry written before the old one is zeroed. -/
theorem c1_logString_commit_iff_witness :
    ((strBytes "a").length ≤ c1State.logEnd - c1State.dataEnd ∧
      (logString c1State (strBytes "a")).2.1.dataEnd / cacheBlockSize
        ≠ c1State.dataEnd / cacheBlockSize) ∧
    (∃ pre,
      (logString c1State (strBytes "a")).2.2 = pre
        ++ [Op.cacheWrite ((logString c1State (strBytes "a")).2.1.journalHead)
              (writeNum ((((logString c1State (strBytes "a")).2.1.dataEnd
                - c1State.dataStart) / cacheBlockSize) * cacheBlockSize)),
            Op.cacheWrite c1State.journalHead (List.replicate journalEntrySize 0)] ∧
      isJournalCacheWrite c1State
        (Op.cacheWrite ((logString c1State (strBytes "a")).2.1.journalHead)
          (writeNum ((((logString c1State (strBytes "a")).2.1.dataEnd
            - c1State.dataStart) / cacheBlockSize) * cacheBlockSize))) ∧
      (∀ op ∈ pre, ¬ isJournalCacheWrite c1State op)) :=
  ⟨⟨by decide, by decide⟩,
    (c1_logString_commit_iff c1State (strBytes "a") (by decide) (by decide) (by decide)
      (by decide) (by decide)).2 (by decide)⟩

/-- C4: when a commit advances the journal head onto a page boundary,
the head wraps to `journalStart` exactly when the advanced address
equals `dataStart`, and the page now holding the head is erased — first
in the cache, then in NVM — before the new journal entry is written
there (and before the old entry is zeroed). -/
theorem c4_journal_wrap_and_erase (st : LogState) (s : List Nat)
    (hfit : s.length ≤ st.logEnd - st.dataEnd)
    (hpb : (st.journalHead + journalEntrySize) % st.pageSize = 0)
    (hcommit : (logString st s).2.1.dataEnd / cacheBlockSize
      ≠ st.dataEnd / cacheBlockSize) :
    (logString st s).2.1.journalHead
      = (if st.journalHead + journalEntrySize = st.dataStart then st.journalStart
        else st.journalHead + journalEntrySize) ∧
    ∃ pre, (logString st s).2.2 = pre
      ++ [Op.cacheErase ((logString st s).2.1.journalHead),
          Op.flashErase ((logString st s).2.1.journalHead),
          Op.cacheWrite ((logString st s).2.1.journalHead)
            (writeNum ((((logString st s).2.1.dataEnd - st.dataStart)
              / cacheBlockSize) * cacheBlockSize)),
          Op.cacheWrite st.journalHead (List.replicate journalEntrySize 0)] := by
  have hnfull : ¬ (st.logEnd - st.dataEnd < s.length) := Nat.not_lt.2 hfit
  rw [logString_nonfull st s _ _ hnfull rfl rfl] at hcommit ⊢
  set D := (if (cleanBuffer s false).length ≠ 0 then cleanBuffer s false else s) with hD
  set w := writeLoop st.pageSize st.logEnd st.dataEnd D D.length with hw
  have hjv : jhAfter st
      = (if st.journalHead + journalEntrySize = st.dataStart then st.journalStart
        else st.journalHead + journalEntrySize) := by
    rw [jhAfter, if_pos hpb]
  have hcs : commitStep {st with dataEnd := w.dataEnd}
      = ({{st with dataEnd := w.dataEnd} with journalHead := jhAfter st},
        (if (st.journalHead + journalEntrySize) % st.pageSize = 0 then
          [Op.cacheErase (jhAfter st), Op.flashErase (jhAfter st)] else []) ++
        [Op.cacheWrite (jhAfter st)
            (writeNum (((w.dataEnd - st.dataStart) / cacheBlockSize) * cacheBlockSize)),
          Op.cacheWrite st.journalHead (List.replicate journalEntrySize 0)]) := rfl
  by_cases hc : w.dataEnd / cacheBlockSize = st.dataEnd / cacheBlockSize
  · rw [if_neg (not_not_intro hc)] at hcommit
    exact absurd hc hcommit
  · rw [if_pos hc]
    dsimp only
    rw [hcs]
    dsimp only
    rw [if_pos hpb]
    refine ⟨hjv, w.ops, rfl⟩

/-- Witness for C4: the head at the journal page's last entry wraps to
`journalStart` and the erases precede the entry write. -/
theorem c4_journal_wrap_and_erase_witness :
    ((strBytes "a").length ≤ c4State.logEnd - c4State.dataEnd ∧
      (c4State.journalHead + journalEntrySize) % c4State.pageSize = 0 ∧
      (logString c4State (strBytes "a")).2.1.dataEnd / cacheBlockSize
        ≠ c4State.dataEnd / cacheBlockSize) ∧
    ((logString c4State (strBytes "a")).2.1.journalHead
      = (if c4State.journalHead + journalEntrySize = c4State.dataStart
        then c4State.journalStart else c4State.journalHead + journalEntrySize) ∧
    ∃ pre, (logString c4State (strBytes "a")).2.2 = pre
      ++ [Op.cacheErase ((logString c4State (strBytes "a")).2.1.journalHead),
          Op.flashErase ((logString c4State (strBytes "a")).2.1.journalHead),
          Op.cacheWrite ((logString c4State (strBytes "a")).2.1.journalHead)
            (writeNum ((((logString c4State (strBytes "a")).2.1.dataEnd
              - c4State.dataStart) / cacheBlockSize) * cacheBlockSize)),
          Op.cacheWrite c4State.journalHead (List.replicate journalEntrySize 0)]) :=
  ⟨⟨by decide, by decide, by decide⟩,
    c4_journal_wrap_and_erase c4State (strBytes "a") (by decide) (by decide) (by decide)⟩

/-- C2 (counterexample): the claim's scan (with "live" as the glossary
defines it: neither all-0x00 nor all-0xFF) mispredicts recovery on a
journal whose erased entries precede the live one: the code treats the
first all-0xFF entry as live (parsing 0) and stops at the second,
recovering `(journalStart, dataStart)`, while the claim's scan would
skip to the real live entry. -/
theorem c2_initRecover_counterexample :
    initRecover crashJournalMem 0 32 40 ≠ claimRecover crashJournalMem 0 32 40 := by
  decide

/-- C2 (amended): the scan strides the journal from `journalStart` in
8-byte steps, skipping all-0x00 entries, stopping at the first all-0xFF
entry that follows any non-all-0x00 entry (an all-0xFF entry seen
before any other non-zero entry is itself taken as live, with parsed
value 0), and takes the last non-all-0x00 entry scanned: `journalHead`
becomes its address and `dataEnd` becomes `dataStart` plus its
hex-parsed value, after which `dataEnd` advances one byte at a time up
to the first 0xFF byte (or `logEnd`).  In particular, after a crash
that left two adjacent live entries, recovery selects the later one. -/
theorem c2_initRecover_amended (mem : Nat → Nat) (js ds le : Nat)
    (zs ls0 : List (List Nat)) (llast : List Nat) (fs : List (List Nat))
    (hview : entriesView mem ds (ds - js) js = zs ++ ls0 ++ llast :: fs)
    (hz : ∀ j ∈ zs, containsOnly j 0 = true ∧ containsOnly j 255 = false)
    (hl : ∀ j ∈ ls0, containsOnly j 0 = false ∧ containsOnly j 255 = false)
    (h0 : containsOnly llast 0 = false) (h255 : containsOnly llast 255 = false)
    (hf : ∀ j ∈ fs, containsOnly j 255 = true)
    (hde : ds + parseHexEntry llast ≤ le) :
    initRecover mem js ds le
      = (js + journalEntrySize * (zs.length + ls0.length),
        byteScan mem le (le - (ds + parseHexEntry llast)) (ds + parseHexEntry llast)) ∧
    (ds + parseHexEntry llast ≤ (initRecover mem js ds le).2 ∧
      (initRecover mem js ds le).2 ≤ le ∧
      (∀ a, ds + parseHexEntry llast ≤ a → a < (initRecover mem js ds le).2 →
        mem a ≠ 255) ∧
      ((initRecover mem js ds le).2 < le → mem ((initRecover mem js ds le).2) = 255)) := by
  have hscan : scanLoop mem ds (ds - js) js js ds false
      = (js + journalEntrySize * (zs.length + ls0.length), ds + parseHexEntry llast) := by
    rw [scanLoop_eq_scanEntries, hview]
    rw [show zs ++ ls0 ++ llast :: fs = zs ++ (ls0 ++ llast :: fs) from
      (List.append_assoc zs ls0 (llast :: fs))]
    rw [scanEntries_zeros ds zs (ls0 ++ llast :: fs) js js ds false hz]
    rw [scanEntries_lives ds ls0 llast fs (js + journalEntrySize * zs.length) js ds
      false hl h0 h255]
    rw [scanEntries_stop ds fs _ _ _ hf]
    have : js + journalEntrySize * zs.length + journalEntrySize * ls0.length
        = js + journalEntrySize * (zs.length + ls0.length) := by ring
    rw [this]
  have hmain : initRecover mem js ds le
      = (js + journalEntrySize * (zs.length + ls0.length),
        byteScan mem le (le - (ds + parseHexEntry llast)) (ds + parseHexEntry llast)) := by
    rw [initRecover, hscan]
  refine ⟨hmain, ?_⟩
  rw [hmain]
  dsimp only
  exact byteScan_spec mem le (le - (ds + parseHexEntry llast))
    (ds + parseHexEntry llast) (Nat.le_refl _) hde

/-- Witness for C2 on a concrete post-crash journal with an invalidated
entry, two adjacent live entries and an erased tail: recovery selects
the second (later) live entry and byte-scans the data tail. -/
theorem c2_initRecover_amended_witness :
    (entriesView twoLiveMem 32 (32 - 0) 0
      = [List.replicate 8 0] ++ [strBytes "00000001"]
        ++ strBytes "00000002" :: [List.replicate 8 255]) ∧
    (initRecover twoLiveMem 0 32 40
        = (0 + journalEntrySize
            * ([List.replicate 8 (0 : Nat)].length + [strBytes "00000001"].length),
          byteScan twoLiveMem 40 (40 - (32 + parseHexEntry (strBytes "00000002")))
            (32 + parseHexEntry (strBytes "00000002"))) ∧
      (32 + parseHexEntry (strBytes "00000002") ≤ (initRecover twoLiveMem 0 32 40).2 ∧
        (initRecover twoLiveMem 0 32 40).2 ≤ 40 ∧
        (∀ a, 32 + parseHexEntry (strBytes "00000002") ≤ a →
          a < (initRecover twoLiveMem 0 32 40).2 → twoLiveMem a ≠ 255) ∧
        ((initRecover twoLiveMem 0 32 40).2 < 40 →
          twoLiveMem ((initRecover twoLiveMem 0 32 40).2) = 255))) :=
  ⟨by decide,
    c2_initRecover_amended twoLiveMem 0 32 40 [List.replicate 8 0]
      [strBytes "00000001"] (strBytes "00000002") [List.replicate 8 255]
      (by decide) (by decide) (by decide) (by decide) (by decide) (by decide)
      (by decide)⟩

end MicroBitLog
